import Mathlib

/-!
Verification of the Beige Book extraction module (`src/etl/extract/fed.py`).

Python strings are modelled as `List Char`.  The regular expressions used by
the source are limited to case-insensitive literals, the character class
`[—-]`, the optional token `\.?` and the whitespace star `\s*`; they are
modelled by a small backtracking matcher (`matchToks`) whose greedy,
alternative-in-order semantics coincides with Python's `re` on these
constructs.  `\s`, `\d` and `\w` are modelled at ASCII precision
(Python's defaults also cover rare non-ASCII code points, which never occur
in the Beige Book corpus and are irrelevant to every claim checked here).
-/

/-- Model of Python strings. -/
abbrev Str := List Char

/-- Characters matched by the regex class `\s` and stripped by `str.strip()`
(ASCII precision). -/
def pyIsSpace (c : Char) : Bool :=
  c = ' ' || c = '\t' || c = '\n' || c = '\r' || c = '\x0b' || c = '\x0c'

/-- Characters matched by the regex class `\w` (ASCII precision):
alphanumerics and the underscore. -/
def isWordChar (c : Char) : Bool :=
  c.isAlphanum || c = '_'

/-- Python `str.strip()`: drop leading and trailing whitespace. -/
def pyStrip (l : Str) : Str :=
  ((l.dropWhile pyIsSpace).reverse.dropWhile pyIsSpace).reverse

/-- Python slice `t[a:b]` for `0 ≤ a`, clamped exactly as Python does. -/
def pySlice (t : Str) (a b : Nat) : Str :=
  (t.drop a).take (b - a)

/-- Tokens of the tiny regex language used by `fed.py`:
a case-insensitive literal character, the class `[—-]`,
an optional character `c?`, and the whitespace star `\s*`. -/
inductive RTok where
  | lit (c : Char) : RTok
  | dash : RTok
  | opt (c : Char) : RTok
  | ws : RTok
deriving DecidableEq

/-- Case-insensitive comparison used for `re.IGNORECASE` (ASCII precision). -/
def ciEq (a b : Char) : Bool :=
  a.toLower = b.toLower

/-- Backtracking matcher, driven by a fuel counter so that the recursion is
structural (every recursive call strictly decreases `toks.length + s.length`,
so any fuel above that sum gives the fixed point). -/
def matchToksF : Nat → List RTok → Str → Option Nat
  | 0, _, _ => none
  | _ + 1, [], _ => some 0
  | _ + 1, .lit _ :: _, [] => none
  | fuel + 1, .lit c :: rest, d :: s =>
      if ciEq c d then (matchToksF fuel rest s).map (· + 1) else none
  | _ + 1, .dash :: _, [] => none
  | fuel + 1, .dash :: rest, d :: s =>
      if d = '—' || d = '-' then (matchToksF fuel rest s).map (· + 1) else none
  | fuel + 1, .opt _ :: rest, [] => matchToksF fuel rest []
  | fuel + 1, .opt c :: rest, d :: s =>
      if ciEq c d then
        match matchToksF fuel rest s with
        | some n => some (n + 1)
        | none => matchToksF fuel rest (d :: s)
      else matchToksF fuel rest (d :: s)
  | fuel + 1, .ws :: rest, [] => matchToksF fuel rest []
  | fuel + 1, .ws :: rest, d :: s =>
      if pyIsSpace d then
        match matchToksF fuel (.ws :: rest) s with
        | some n => some (n + 1)
        | none => matchToksF fuel rest (d :: s)
      else matchToksF fuel rest (d :: s)

/-- Backtracking matcher: `matchToks toks s` returns the number of characters
of the prefix of `s` matched by the token sequence, preferring longer
(greedy) matches exactly as Python's `re` does on these constructs. -/
def matchToks (toks : List RTok) (s : Str) : Option Nat :=
  matchToksF (toks.length + s.length + 1) toks s

/-- Alternation: alternatives are tried left to right, as Python's `re`
does for a top-level `a|b|…` pattern. -/
def matchAlts : List (List RTok) → Str → Option Nat
  | [], _ => none
  | a :: rest, s =>
      match matchToks a s with
      | some n => some n
      | none => matchAlts rest s

/-- Turn a literal pattern string into a token sequence. -/
def lpat (s : String) : List RTok :=
  s.toList.map RTok.lit

/-- Model of `re.search`: scan offsets left to right, returning the first
offset (and match length) at which the matcher succeeds. -/
def searchAux (m : Str → Option Nat) : Str → Nat → Option (Nat × Nat)
  | [], i =>
      match m [] with
      | some n => some (i, n)
      | none => none
  | c :: t, i =>
      match m (c :: t) with
      | some n => some (i, n)
      | none => searchAux m t (i + 1)

/-- Model of `re.search` starting at offset 0. -/
def reSearch (m : Str → Option Nat) (t : Str) : Option (Nat × Nat) :=
  searchAux m t 0

/-- Model of `re.finditer`, driven by a fuel counter so that the recursion
is structural (each step consumes at least one character, so any fuel above
`s.length` gives the fixed point): all non-overlapping matches, leftmost
first, each reported as (start offset, matched substring). -/
def finditerF (m : Str → Option Nat) : Nat → Str → Nat → List (Nat × Str)
  | 0, _, _ => []
  | _ + 1, [], _ => []
  | fuel + 1, c :: t, i =>
      match m (c :: t) with
      | some (n + 1) =>
          (i, (c :: t).take (n + 1)) :: finditerF m fuel (t.drop n) (i + n + 1)
      | _ => finditerF m fuel t (i + 1)

/-- Model of `re.finditer` over the whole text. -/
def finditer (m : Str → Option Nat) (t : Str) : List (Nat × Str) :=
  finditerF m (t.length + 1) t 0

/-- The list `region_patterns` of `fed.py`, in source order; each entry is an
alternation (all but the bare-city catalogue are single-alternative). -/
def region_patterns : List (List (List RTok)) :=
  [ [lpat "First District" ++ [.dash, .ws] ++ lpat "Boston"],
    [lpat "Second District" ++ [.dash, .ws] ++ lpat "New York"],
    [lpat "Third District" ++ [.dash, .ws] ++ lpat "Philadelphia"],
    [lpat "Fourth District" ++ [.dash, .ws] ++ lpat "Cleveland"],
    [lpat "Fifth District" ++ [.dash, .ws] ++ lpat "Richmond"],
    [lpat "Sixth District" ++ [.dash, .ws] ++ lpat "Atlanta"],
    [lpat "Seventh District" ++ [.dash, .ws] ++ lpat "Chicago"],
    [lpat "Eighth District" ++ [.dash, .ws] ++ lpat "St" ++ [.opt '.', .ws] ++ lpat "Louis"],
    [lpat "Ninth District" ++ [.dash, .ws] ++ lpat "Minneapolis"],
    [lpat "Tenth District" ++ [.dash, .ws] ++ lpat "Kansas City"],
    [lpat "Eleventh District" ++ [.dash, .ws] ++ lpat "Dallas"],
    [lpat "Twelfth District" ++ [.dash, .ws] ++ lpat "San Francisco"],
    [lpat "BOSTON", lpat "ATLANTA", lpat "CHICAGO", lpat "CLEVELAND",
     lpat "DALLAS", lpat "KANSAS CITY", lpat "MINNEAPOLIS", lpat "NEW YORK",
     lpat "PHILADELPHIA", lpat "RICHMOND", lpat "SAN FRANCISCO",
     lpat "ST" ++ [.opt '.', .ws] ++ lpat "LOUIS"] ]

/-- All region matches of all patterns, in pattern order
(the `region_matches` list of `fed.py` before sorting). -/
def allRegionMatches (t : Str) : List (Nat × Str) :=
  region_patterns.flatMap (fun p => finditer (matchAlts p) t)

/-- Stable insertion preserving Python's sort-by-start-offset order. -/
def insertPos (x : Nat × Str) : List (Nat × Str) → List (Nat × Str)
  | [] => [x]
  | y :: ys => if x.1 ≤ y.1 then x :: y :: ys else y :: insertPos x ys

/-- Stable sort by start offset (Python's `list.sort(key=lambda x: x[0])`). -/
def sortPos (l : List (Nat × Str)) : List (Nat × Str) :=
  l.foldr insertPos []

/-- The sorted match list of `extract_regional_sections`. -/
def regionMatchesSorted (t : Str) : List (Nat × Str) :=
  sortPos (allRegionMatches t)

/-- Span boundaries: each match's span runs from its start offset to the next
match's start offset, the last one to `L` (the text length). -/
def spanBounds (L : Nat) : List (Nat × Str) → List (Nat × Nat × Str)
  | [] => []
  | [(p, nm)] => [(p, L, nm)]
  | (p, nm) :: (q, nm2) :: rest => (p, q, nm) :: spanBounds L ((q, nm2) :: rest)

/-- Python dict assignment `d[k] = v`: overwrite in place if the key exists
(keeping its original position), otherwise append. -/
def dictInsert (k v : Str) : List (Str × Str) → List (Str × Str)
  | [] => [(k, v)]
  | (k2, v2) :: r => if k2 = k then (k, v) :: r else (k2, v2) :: dictInsert k v r

/-- The function `extract_regional_sections` of `fed.py`. -/
def extract_regional_sections (t : Str) : List (Str × Str) :=
  (spanBounds t.length (regionMatchesSorted t)).foldl
    (fun d x => dictInsert x.2.2 (pyStrip (pySlice t x.1 x.2.1)) d) []

/-- The `summary_patterns` list of `fed.py`. -/
def summary_patterns : List (List (List RTok)) :=
  [[lpat "SUMMARY"], [lpat "National Summary"], [lpat "Overview"]]

/-- The anchor pattern `First District|Second District|BOSTON|ATLANTA`
searched after a summary header. -/
def anchorAlts : List (List RTok) :=
  [lpat "First District", lpat "Second District", lpat "BOSTON", lpat "ATLANTA"]

/-- Body of the summary loop once a header match ends at `startPos`:
the remainder is `t[startPos:]`, cut at the first anchor match if any. -/
def summarySpan (t : Str) (startPos : Nat) : Str :=
  match reSearch (matchAlts anchorAlts) (t.drop startPos) with
  | some (j, _) => pyStrip ((t.drop startPos).take j)
  | none => pyStrip (t.drop startPos)

/-- The pattern loop of `extract_summary_section`. -/
def summaryAux : List (List (List RTok)) → Str → Option Str
  | [], _ => none
  | p :: ps, t =>
      match reSearch (matchAlts p) t with
      | some (i, n) => some (summarySpan t (i + n))
      | none => summaryAux ps t

/-- The function `extract_summary_section` of `fed.py`. -/
def extract_summary_section (t : Str) : Option Str :=
  summaryAux summary_patterns t

/-- Characters kept verbatim by the class substitution of `clean_text`
(the complement of `[^\w\s\.\,\;\:\!\?\-\(\)]`). -/
def allowedChar (c : Char) : Bool :=
  isWordChar c || pyIsSpace c || c ∈ ['.', ',', ';', ':', '!', '?', '-', '(', ')']

/-- Model of `re.sub(r'\s+', ' ', text)`: collapse each maximal whitespace
run into a single space (the space is emitted at the last character of the
run, which yields the same string). -/
def collapseWs : Str → Str
  | [] => []
  | [c] => if pyIsSpace c then [' '] else [c]
  | a :: b :: r =>
      if pyIsSpace a then
        if pyIsSpace b then collapseWs (b :: r)
        else ' ' :: collapseWs (b :: r)
      else a :: collapseWs (b :: r)

/-- Match of the pattern `Page \d+` at the head of the string (case sensitive,
greedy digits), returning its length. -/
def matchPage (s : Str) : Option Nat :=
  if s.take 5 = ['P', 'a', 'g', 'e', ' '] then
    let k := ((s.drop 5).takeWhile Char.isDigit).length
    if k = 0 then none else some (5 + k)
  else none

/-- Model of `re.sub(r'Page \d+', '', text)`, driven by a fuel counter so
that the recursion is structural: delete each non-overlapping leftmost
occurrence.  A match always has length `n ≥ 6`, so dropping `n - 1`
characters of the tail equals dropping `n` characters of the whole. -/
def subPageF : Nat → Str → Str
  | 0, _ => []
  | _ + 1, [] => []
  | fuel + 1, c :: cs =>
      match matchPage (c :: cs) with
      | some n => subPageF fuel (cs.drop (n - 1))
      | none => c :: subPageF fuel cs

/-- Model of `re.sub(r'Page \d+', '', text)` with enough fuel. -/
def subPage (l : Str) : Str :=
  subPageF (l.length + 1) l

/-- Model of `re.sub(r'[^\w\s\.\,\;\:\!\?\-\(\)]', ' ', text)`: replace every
disallowed character with a single space. -/
def subClass (l : Str) : Str :=
  l.map (fun c => if allowedChar c then c else ' ')

/-- The function `clean_text` of `fed.py`. -/
def clean_text (l : Str) : Str :=
  pyStrip (subClass (subPage (collapseWs l)))

/-- Matcher for the pattern `(\d{8})`: eight consecutive digits. -/
def match8 (s : Str) : Option Nat :=
  if 8 ≤ s.length ∧ (s.take 8).all Char.isDigit = true then some 8 else none

/-- A calendar date as produced by `datetime.strptime(date_str, '%Y%m%d')`. -/
structure PDate where
  year : Nat
  month : Nat
  day : Nat
deriving DecidableEq, Repr

/-- Gregorian leap-year test, as used by `datetime`. -/
def isLeap (y : Nat) : Bool :=
  (y % 4 = 0 && y % 100 != 0) || y % 400 = 0

/-- Days in a month, as enforced by the `datetime` constructor. -/
def daysInMonth (y m : Nat) : Nat :=
  if m = 2 then (if isLeap y then 29 else 28)
  else if m = 4 || m = 6 || m = 9 || m = 11 then 30
  else 31

/-- Numeric value of a digit string. -/
def digitsToNat (l : Str) : Nat :=
  l.foldl (fun a c => 10 * a + (c.toNat - 48)) 0

/-- The `YYYYMMDD` reading of an 8-digit string: first four digits are the
year, then two for the month, two for the day. -/
def ymdOf (ds : Str) : PDate :=
  ⟨digitsToNat (ds.take 4), digitsToNat ((ds.drop 4).take 2), digitsToNat (ds.drop 6)⟩

/-- Validity condition of `datetime.strptime(ds, '%Y%m%d')` on an 8-digit
string: on such strings the format regex fixes the 4-2-2 split, and the
`datetime` constructor enforces these range checks, raising `ValueError`
otherwise. -/
def validYmd (d : PDate) : Prop :=
  1 ≤ d.year ∧ 1 ≤ d.month ∧ d.month ≤ 12 ∧ 1 ≤ d.day ∧ d.day ≤ daysInMonth d.year d.month

instance (d : PDate) : Decidable (validYmd d) := by
  unfold validYmd; infer_instance

/-- Model of `datetime.strptime(ds, '%Y%m%d')` on an 8-digit string:
either the parsed date or a raised `ValueError`. -/
def strptimeYmd (ds : Str) : Except Unit PDate :=
  if validYmd (ymdOf ds) then Except.ok (ymdOf ds) else Except.error ()

/-- The function `extract_date_from_filename` of `fed.py`.  `Except.error`
models an uncaught `ValueError` raised by `strptime`. -/
def extract_date_from_filename (f : Str) : Except Unit (Option PDate) :=
  match reSearch match8 f with
  | some (i, _) => (strptimeYmd ((f.drop i).take 8)).map some
  | none => Except.ok none

/-- Worker for `str.split()`: `acc` is the current token read so far,
in reverse order. -/
def pySplitAux : Str → Str → List Str
  | acc, [] => if acc = [] then [] else [acc.reverse]
  | acc, c :: cs =>
      if pyIsSpace c then
        if acc = [] then pySplitAux [] cs else acc.reverse :: pySplitAux [] cs
      else pySplitAux (c :: acc) cs

/-- Python `str.split()` with no arguments: whitespace-delimited tokens,
leading/trailing/repeated separators ignored. -/
def pySplit (l : Str) : List Str :=
  pySplitAux [] l

/-- Independent count of whitespace-delimited tokens: the flag records
whether the previous character belonged to a token. -/
def countTokensAux : Bool → Str → Nat
  | _, [] => 0
  | inTok, c :: cs =>
      if pyIsSpace c then countTokensAux false cs
      else (if inTok then 0 else 1) + countTokensAux true cs

/-- Number of whitespace-delimited tokens of a string. -/
def countTokens (l : Str) : Nat :=
  countTokensAux false l

/-- One fully extracted Beige Book record, as assembled by
`extract_beige_book`. -/
structure BBRecord where
  filename : Str
  date : Option PDate
  full_text : Str
  summary : Option Str
  regions : List (Str × Str)
  region_count : Nat
  char_count : Nat
  word_count : Nat
deriving DecidableEq, Repr

/-- Outcome of `extract_beige_book`: an uncaught exception, the error
record `{"error": …}`, or a full record. -/
inductive BBResult where
  | raised : BBResult
  | errorRec (msg : Str) : BBResult
  | record (r : BBRecord) : BBResult
deriving DecidableEq, Repr

/-- The error message used by `extract_beige_book` for empty text. -/
def errMsg (name : Str) : Str :=
  "Could not extract text from ".toList ++ name

/-- The line `clean_text(summary) if summary else None` of
`extract_beige_book`: Python truthiness makes both a missing summary and an
empty-string summary fall to `None`; only a non-empty summary is cleaned. -/
def cleanSummaryOpt (s : Option Str) : Option Str :=
  match s with
  | none => none
  | some l => if l = [] then none else some (clean_text l)

/-- The function `extract_beige_book` of `fed.py`, with the PDF text
extraction (an external collaborator) replaced by its result `raw_text`.
The date is parsed before the empty-text check, exactly as in the source. -/
def extract_beige_book (name raw_text : Str) : BBResult :=
  match extract_date_from_filename name with
  | Except.error _ => BBResult.raised
  | Except.ok date =>
      if raw_text = [] then BBResult.errorRec (errMsg name)
      else
        let summary := extract_summary_section raw_text
        let regions := extract_regional_sections raw_text
        let cleaned := clean_text raw_text
        BBResult.record
          { filename := name
            date := date
            full_text := cleaned
            summary := cleanSummaryOpt summary
            regions := regions.map (fun kv => (kv.1, clean_text kv.2))
            region_count := regions.length
            char_count := cleaned.length
            word_count := (pySplit cleaned).length }

/-- Spec-side predicate: a case-insensitive occurrence of `lit` as a prefix
of `s`. -/
def litPre (s lit : Str) : Prop :=
  (s.take lit.length).map Char.toLower = lit.map Char.toLower

instance (s lit : Str) : Decidable (litPre s lit) := by
  unfold litPre; infer_instance

/-- Spec-side predicate: a case-insensitive occurrence of the literal `lit`
at offset `k` of `t`. -/
def litAt (t : Str) (k : Nat) (lit : Str) : Prop :=
  litPre (t.drop k) lit

instance (t : Str) (k : Nat) (lit : Str) : Decidable (litAt t k lit) := by
  unfold litAt; infer_instance

/-- The literals of the anchor pattern, as plain strings. -/
def anchorLits : List Str :=
  ["First District".toList, "Second District".toList, "BOSTON".toList, "ATLANTA".toList]

/-- The end-to-end scenario text of the specification. -/
def scenarioText : Str :=
  "SUMMARY Overall growth was modest. First District--Boston Activity increased. Second District--New York Activity was flat.".toList

/-- Spec-side predicate: eight consecutive digit characters start at offset
`k` of `t`. -/
def digits8At (t : Str) (k : Nat) : Prop :=
  8 ≤ (t.drop k).length ∧ ((t.drop k).take 8).all Char.isDigit = true

instance (t : Str) (k : Nat) : Decidable (digits8At t k) := by
  unfold digits8At; infer_instance

/-- Spec-side predicate: one of the four anchor literals occurs at offset
`j` of `t` (case-insensitively). -/
def anchorAt (t : Str) (j : Nat) : Prop :=
  litAt t j "First District".toList ∨ litAt t j "Second District".toList ∨
    litAt t j "BOSTON".toList ∨ litAt t j "ATLANTA".toList

instance (t : Str) (j : Nat) : Decidable (anchorAt t j) := by
  unfold anchorAt; infer_instance

/-- Contiguity of a span list: each span ends where the next begins, and the
final span ends at `L`. -/
def contiguousTo (L : Nat) : List (Nat × Nat × Str) → Prop
  | [] => True
  | [(_, e, _)] => e = L
  | (_, e, _) :: (s, e2, nm) :: rest => e = s ∧ contiguousTo L ((s, e2, nm) :: rest)

/-- Absence of the `Page \d+` artifact anywhere in a string. -/
def pageFree (l : Str) : Bool :=
  l.tails.all (fun s => (matchPage s).isNone)

/-- Absence of two adjacent whitespace characters. -/
def noDbl : Str → Bool
  | [] => true
  | [_] => true
  | a :: b :: r => !(pyIsSpace a && pyIsSpace b) && noDbl (b :: r)

/-! ## Characterization of `re.search` -/

theorem searchAux_nil (m : Str → Option Nat) (i : Nat) :
    searchAux m [] i = match m [] with | some n => some (i, n) | none => none :=
  rfl

theorem searchAux_cons (m : Str → Option Nat) (c : Char) (t : Str) (i : Nat) :
    searchAux m (c :: t) i =
      match m (c :: t) with
      | some n => some (i, n)
      | none => searchAux m t (i + 1) :=
  rfl

theorem searchAux_some_iff (m : Str → Option Nat) :
    ∀ (s : Str) (i p n : Nat),
      searchAux m s i = some (p, n) ↔
        ∃ j, p = i + j ∧ j ≤ s.length ∧ m (s.drop j) = some n ∧
          ∀ k, k < j → m (s.drop k) = none
  | [], i, p, n => by
      rw [searchAux_nil]
      cases h : m [] with
      | some n0 =>
          simp only [Option.some.injEq, Prod.mk.injEq]
          constructor
          · rintro ⟨rfl, rfl⟩
            exact ⟨0, by omega, by simp, by simpa using h, by omega⟩
          · rintro ⟨j, hp, hj, hm, _⟩
            simp only [List.length_nil, Nat.le_zero] at hj
            subst hj
            simp only [List.drop_nil, h, Option.some.injEq] at hm
            exact ⟨by omega, hm⟩
      | none =>
          simp only []
          constructor
          · intro he; cases he
          · rintro ⟨j, _, hj, hm, _⟩
            simp only [List.length_nil, Nat.le_zero] at hj
            subst hj
            simp only [List.drop_nil, h] at hm
            exact Option.noConfusion hm
  | c :: t, i, p, n => by
      rw [searchAux_cons]
      cases h : m (c :: t) with
      | some n0 =>
          simp only [Option.some.injEq, Prod.mk.injEq]
          constructor
          · rintro ⟨rfl, rfl⟩
            exact ⟨0, by omega, by simp, by simpa using h, by omega⟩
          · rintro ⟨j, hp, hj, hm, hnone⟩
            cases j with
            | zero =>
                simp only [List.drop_zero, h, Option.some.injEq] at hm
                exact ⟨by omega, hm⟩
            | succ j1 =>
                have h0 := hnone 0 (by omega)
                simp only [List.drop_zero, h] at h0
                exact Option.noConfusion h0
      | none =>
          constructor
          · intro he
            rcases (searchAux_some_iff m t (i + 1) p n).mp he with ⟨j, hp, hj, hm, hnone⟩
            refine ⟨j + 1, by omega, ?_, by simpa using hm, ?_⟩
            · simp only [List.length_cons]; omega
            · intro k hk
              cases k with
              | zero => simpa using h
              | succ k1 => simpa using hnone k1 (by omega)
          · rintro ⟨j, hp, hj, hm, hnone⟩
            cases j with
            | zero =>
                simp only [List.drop_zero, h] at hm
                exact Option.noConfusion hm
            | succ j1 =>
                refine (searchAux_some_iff m t (i + 1) p n).mpr ⟨j1, by omega, ?_, by simpa using hm, ?_⟩
                · simp only [List.length_cons] at hj; omega
                · intro k hk
                  simpa using hnone (k + 1) (by omega)

theorem searchAux_none_iff (m : Str → Option Nat) :
    ∀ (s : Str) (i : Nat),
      searchAux m s i = none ↔ ∀ j, m (s.drop j) = none
  | [], i => by
      rw [searchAux_nil]
      cases h : m [] with
      | some n0 =>
          simp only []
          constructor
          · intro he; cases he
          · intro hall
            have h0 := hall 0
            simp only [List.drop_nil, h] at h0
            exact Option.noConfusion h0
      | none =>
          simp only []
          constructor
          · intro _ j
            simpa [List.drop_nil] using h
          · intro _
            trivial
  | c :: t, i => by
      rw [searchAux_cons]
      cases h : m (c :: t) with
      | some n0 =>
          simp only []
          constructor
          · intro he; cases he
          · intro hall
            have h0 := hall 0
            simp only [List.drop_zero, h] at h0
            exact Option.noConfusion h0
      | none =>
          constructor
          · intro he j
            cases j with
            | zero => simpa using h
            | succ j1 => simpa using (searchAux_none_iff m t (i + 1)).mp he j1
          · intro hall
            refine (searchAux_none_iff m t (i + 1)).mpr ?_
            intro j
            simpa using hall (j + 1)

theorem reSearch_some_iff (m : Str → Option Nat) (t : Str) (p n : Nat) :
    reSearch m t = some (p, n) ↔
      p ≤ t.length ∧ m (t.drop p) = some n ∧ ∀ k, k < p → m (t.drop k) = none := by
  unfold reSearch
  rw [searchAux_some_iff]
  constructor
  · rintro ⟨j, hp, hj, hm, hnone⟩
    subst hp
    simpa using ⟨hj, hm, hnone⟩
  · rintro ⟨hp, hm, hnone⟩
    exact ⟨p, by omega, hp, hm, hnone⟩

theorem reSearch_none_iff (m : Str → Option Nat) (t : Str) :
    reSearch m t = none ↔ ∀ j, m (t.drop j) = none :=
  searchAux_none_iff m t 0

/-! ## The date parser (claims C2 and C10) -/

theorem match8_drop_some_iff (t : Str) (k n : Nat) :
    match8 (t.drop k) = some n ↔ n = 8 ∧ digits8At t k := by
  unfold match8
  split
  · rename_i hcond
    constructor
    · intro he
      exact ⟨(Option.some.inj he).symm, hcond⟩
    · rintro ⟨rfl, _⟩
      rfl
  · rename_i hcond
    constructor
    · intro he
      exact Option.noConfusion he
    · rintro ⟨_, hd⟩
      exact absurd hd hcond

theorem match8_drop_none_iff (t : Str) (k : Nat) :
    match8 (t.drop k) = none ↔ ¬ digits8At t k := by
  unfold match8
  split
  · rename_i hcond
    constructor
    · intro he
      exact Option.noConfusion he
    · intro hnd
      exact absurd hcond hnd
  · rename_i hcond
    constructor
    · intro _
      exact hcond
    · intro _
      rfl

theorem digits8At_le_length {f : Str} {i : Nat} (h : digits8At f i) : i ≤ f.length := by
  rcases h with ⟨h8, _⟩
  simp only [List.length_drop] at h8
  omega

/-- Shared helper: when the leftmost run of eight consecutive digits starts
at `i`, the parser hands exactly those eight characters to `strptime`. -/
theorem extract_date_eq_of_leftmost (f : Str) (i : Nat)
    (hi : digits8At f i) (hlt : ∀ k, k < i → ¬ digits8At f k) :
    extract_date_from_filename f = (strptimeYmd ((f.drop i).take 8)).map some := by
  have hs : reSearch match8 f = some (i, 8) := by
    refine (reSearch_some_iff match8 f i 8).mpr
      ⟨digits8At_le_length hi, (match8_drop_some_iff f i 8).mpr ⟨rfl, hi⟩, ?_⟩
    intro k hk
    exact (match8_drop_none_iff f k).mpr (hlt k hk)
  unfold extract_date_from_filename
  rw [hs]

/-- Claim C2 (counterexample): for the filename `BeigeBook_20240230.pdf`,
whose unique 8-digit substring `20240230` is not a valid date (February 2024
has 29 days), `extract_date_from_filename` propagates the `ValueError`
raised by `strptime` (modelled as `Except.error`) instead of returning the
"no date" result `Except.ok none` that the claim promises. -/
theorem claim_C2_counterexample :
    extract_date_from_filename ("BeigeBook_20240230.pdf".toList) = Except.error () := by
  rfl

/-- Claim C2 (amended): the parser searches for the leftmost contiguous
8-digit substring; if none exists it returns "no date"; if the leftmost one
forms a valid `YYYYMMDD` date it returns exactly that date; but if it does
not form a valid date, a `ValueError` is raised rather than "no date"
being returned. -/
theorem claim_C2_amended (f : Str) :
    ((∀ k, ¬ digits8At f k) → extract_date_from_filename f = Except.ok none) ∧
    (∀ i, digits8At f i → (∀ k, k < i → ¬ digits8At f k) →
      (validYmd (ymdOf ((f.drop i).take 8)) →
          extract_date_from_filename f = Except.ok (some (ymdOf ((f.drop i).take 8)))) ∧
      (¬ validYmd (ymdOf ((f.drop i).take 8)) →
          extract_date_from_filename f = Except.error ())) := by
  constructor
  · intro hnone
    have hs : reSearch match8 f = none := by
      refine (reSearch_none_iff match8 f).mpr ?_
      intro j
      exact (match8_drop_none_iff f j).mpr (hnone j)
    unfold extract_date_from_filename
    rw [hs]
  · intro i hi hlt
    have hbase := extract_date_eq_of_leftmost f i hi hlt
    constructor
    · intro hv
      rw [hbase]
      unfold strptimeYmd
      rw [if_pos hv]
      rfl
    · intro hv
      rw [hbase]
      unfold strptimeYmd
      rw [if_neg hv]
      rfl

/-- Witness for claim C2 (amended): the filename `BeigeBook_20240117.pdf`
has its leftmost 8-digit run at offset 10 and parses to 2024-01-17. -/
theorem claim_C2_amended_witness :
    extract_date_from_filename ("BeigeBook_20240117.pdf".toList) =
      Except.ok (some ⟨2024, 1, 17⟩) := by
  have h := ((claim_C2_amended ("BeigeBook_20240117.pdf".toList)).2 10
      (by decide) (by decide)).1 (by decide)
  rw [h]
  rfl

/-- Claim C10: when a filename contains more than one 8-digit substring, or
a run of more than eight consecutive digits, the parser uses the leftmost
run of eight consecutive digits: in general the parsed characters are the
eight digits starting at the leftmost such offset; in particular
`BB_2024011720250101.pdf` (two dates, `20240117` first) parses to
2024-01-17, and `BB_202401175.pdf` (a nine-digit run) parses the first
eight digits `20240117` of that run. -/
theorem claim_C10_leftmost :
    (∀ (f : Str) (i : Nat), digits8At f i → (∀ k, k < i → ¬ digits8At f k) →
        extract_date_from_filename f = (strptimeYmd ((f.drop i).take 8)).map some) ∧
    extract_date_from_filename ("BB_2024011720250101.pdf".toList) =
      Except.ok (some ⟨2024, 1, 17⟩) ∧
    extract_date_from_filename ("BB_202401175.pdf".toList) =
      Except.ok (some ⟨2024, 1, 17⟩) := by
  refine ⟨extract_date_eq_of_leftmost, by rfl, by rfl⟩

/-- Witness for claim C10: discharging its hypotheses at the concrete
filename `a20240117b20250101`, whose leftmost 8-digit run starts at
offset 1. -/
theorem claim_C10_leftmost_witness :
    extract_date_from_filename ("a20240117b20250101".toList) =
      (strptimeYmd (("a20240117b20250101".toList.drop 1).take 8)).map some := by
  exact claim_C10_leftmost.1 ("a20240117b20250101".toList) 1 (by decide) (by decide)

/-! ## Characterization of literal patterns -/

theorem litPre_le_length {s lit : Str} (h : litPre s lit) : lit.length ≤ s.length := by
  unfold litPre at h
  have hlen := congrArg List.length h
  simp only [List.length_map, List.length_take] at hlen
  omega

theorem matchToksF_lit_iff :
    ∀ (fuel : Nat) (lit s : Str) (n : Nat), lit.length + s.length < fuel →
      (matchToksF fuel (lit.map RTok.lit) s = some n ↔ n = lit.length ∧ litPre s lit)
  | 0, lit, s, n => by
      intro h
      exact absurd h (Nat.not_lt_zero _)
  | fuel + 1, [], s, n => by
      intro _
      simp only [List.map_nil, matchToksF]
      constructor
      · intro he
        exact ⟨(Option.some.inj he).symm, by simp [litPre]⟩
      · rintro ⟨rfl, _⟩
        rfl
  | fuel + 1, c :: cs, [], n => by
      intro _
      simp only [List.map_cons, matchToksF]
      constructor
      · intro he
        exact Option.noConfusion he
      · rintro ⟨_, hpre⟩
        exfalso
        unfold litPre at hpre
        simp only [List.take_nil, List.map_nil, List.map_cons] at hpre
        exact List.noConfusion hpre
  | fuel + 1, c :: cs, d :: t, n => by
      intro hf
      simp only [List.map_cons, matchToksF]
      by_cases hc : ciEq c d = true
      · rw [if_pos hc]
        have hcd : c.toLower = d.toLower := by
          unfold ciEq at hc
          exact of_decide_eq_true hc
        constructor
        · intro he
          rcases Option.map_eq_some'.mp he with ⟨m, hm, rfl⟩
          rcases (matchToksF_lit_iff fuel cs t m
              (by simp only [List.length_cons] at hf; omega)).mp hm with ⟨rfl, hpre⟩
          refine ⟨by simp, ?_⟩
          unfold litPre at hpre ⊢
          simp only [List.length_cons, List.take_succ_cons, List.map_cons]
          exact congrArg₂ List.cons hcd.symm hpre
        · rintro ⟨rfl, hpre⟩
          unfold litPre at hpre
          simp only [List.length_cons, List.take_succ_cons, List.map_cons,
            List.cons.injEq] at hpre
          have hm := (matchToksF_lit_iff fuel cs t cs.length
              (by simp only [List.length_cons] at hf; omega)).mpr ⟨rfl, hpre.2⟩
          rw [hm]
          rfl
      · rw [if_neg hc]
        constructor
        · intro he
          exact Option.noConfusion he
        · rintro ⟨_, hpre⟩
          exfalso
          unfold litPre at hpre
          simp only [List.length_cons, List.take_succ_cons, List.map_cons,
            List.cons.injEq] at hpre
          apply hc
          unfold ciEq
          exact decide_eq_true hpre.1.symm

theorem matchToks_lit_some_iff (lit s : Str) (n : Nat) :
    matchToks (lit.map RTok.lit) s = some n ↔ n = lit.length ∧ litPre s lit := by
  unfold matchToks
  exact matchToksF_lit_iff _ lit s n (by simp only [List.length_map]; omega)

theorem matchToks_lit_none_iff (lit s : Str) :
    matchToks (lit.map RTok.lit) s = none ↔ ¬ litPre s lit := by
  cases h : matchToks (lit.map RTok.lit) s with
  | some n =>
      rcases (matchToks_lit_some_iff lit s n).mp h with ⟨_, hpre⟩
      constructor
      · intro he
        exact Option.noConfusion he
      · intro hn
        exact absurd hpre hn
  | none =>
      constructor
      · intro _ hpre
        have := (matchToks_lit_some_iff lit s lit.length).mpr ⟨rfl, hpre⟩
        rw [h] at this
        exact Option.noConfusion this
      · intro _
        rfl

theorem matchAlts_lits_none_iff :
    ∀ (ls : List Str) (s : Str),
      matchAlts (ls.map (fun l => l.map RTok.lit)) s = none ↔ ∀ l ∈ ls, ¬ litPre s l
  | [], s => by simp [matchAlts]
  | l :: rest, s => by
      simp only [List.map_cons, matchAlts]
      cases h : matchToks (l.map RTok.lit) s with
      | some n =>
          rcases (matchToks_lit_some_iff l s n).mp h with ⟨_, hpre⟩
          constructor
          · intro he
            exact Option.noConfusion he
          · intro hall
            exact absurd hpre (hall l (List.mem_cons_self l rest))
      | none =>
          rw [matchAlts_lits_none_iff rest s]
          constructor
          · intro hall l2 hl2
            rcases List.mem_cons.mp hl2 with rfl | h2
            · exact (matchToks_lit_none_iff l2 s).mp h
            · exact hall l2 h2
          · intro hall l2 hl2
            exact hall l2 (List.mem_cons_of_mem _ hl2)

theorem matchAlts_lits_some_exists (ls : List Str) (s : Str)
    (h : ∃ l ∈ ls, litPre s l) :
    ∃ n, matchAlts (ls.map (fun l => l.map RTok.lit)) s = some n := by
  cases hm : matchAlts (ls.map (fun l => l.map RTok.lit)) s with
  | some n => exact ⟨n, rfl⟩
  | none =>
      rcases h with ⟨l, hl, hpre⟩
      exact absurd hpre ((matchAlts_lits_none_iff ls s).mp hm l hl)

theorem reSearch_single_lit_of_least (w : String) (t : Str) (i : Nat)
    (hw : w.toList ≠ [])
    (h : litAt t i w.toList) (hmin : ∀ k, k < i → ¬ litAt t k w.toList) :
    reSearch (matchAlts [lpat w]) t = some (i, w.toList.length) := by
  have hform : [lpat w] = [w.toList].map (fun l => l.map RTok.lit) := by
    simp [lpat]
  refine (reSearch_some_iff _ _ _ _).mpr ⟨?_, ?_, ?_⟩
  · have hle := litPre_le_length h
    have hpos : 0 < w.toList.length := List.length_pos.mpr hw
    simp only [List.length_drop] at hle
    omega
  · have hsome := (matchToks_lit_some_iff w.toList (t.drop i) w.toList.length).mpr ⟨rfl, h⟩
    show matchAlts [lpat w] (t.drop i) = some w.toList.length
    simp only [matchAlts, lpat]
    rw [hsome]
  · intro k hk
    rw [hform, matchAlts_lits_none_iff]
    intro l hl
    rcases List.mem_singleton.mp hl with rfl
    exact hmin k hk

theorem reSearch_single_lit_none (w : String) (t : Str)
    (h : ∀ j, ¬ litAt t j w.toList) :
    reSearch (matchAlts [lpat w]) t = none := by
  have hform : [lpat w] = [w.toList].map (fun l => l.map RTok.lit) := by
    simp [lpat]
  rw [hform]
  refine (reSearch_none_iff _ _).mpr ?_
  intro j
  rw [matchAlts_lits_none_iff]
  intro l hl
  rcases List.mem_singleton.mp hl with rfl
  exact h j

theorem anchorAlts_eq :
    anchorAlts = anchorLits.map (fun l => l.map RTok.lit) := rfl

theorem anchorAt_iff_exists (r : Str) (j : Nat) :
    anchorAt r j ↔ ∃ l ∈ anchorLits, litPre (r.drop j) l := by
  unfold anchorAt anchorLits litAt
  constructor
  · rintro (h | h | h | h)
    · exact ⟨_, by simp, h⟩
    · exact ⟨_, by simp, h⟩
    · exact ⟨_, by simp, h⟩
    · exact ⟨_, by simp, h⟩
  · rintro ⟨l, hl, hpre⟩
    simp only [List.mem_cons, List.mem_singleton] at hl
    rcases hl with rfl | rfl | rfl | (rfl | h)
    · exact Or.inl hpre
    · exact Or.inr (Or.inl hpre)
    · exact Or.inr (Or.inr (Or.inl hpre))
    · exact Or.inr (Or.inr (Or.inr hpre))
    · exact absurd h (List.not_mem_nil l)

theorem anchorLits_pos {l : Str} (hl : l ∈ anchorLits) : 0 < l.length := by
  unfold anchorLits at hl
  simp only [List.mem_cons, List.mem_singleton] at hl
  rcases hl with rfl | rfl | rfl | (rfl | h)
  · decide
  · decide
  · decide
  · decide
  · exact absurd h (List.not_mem_nil l)

theorem reSearch_anchor_of_least (r : Str) (j : Nat)
    (ha : anchorAt r j) (hmin : ∀ k, k < j → ¬ anchorAt r k) :
    ∃ n, reSearch (matchAlts anchorAlts) r = some (j, n) := by
  have hex := (anchorAt_iff_exists r j).mp ha
  obtain ⟨n, hn⟩ := matchAlts_lits_some_exists anchorLits (r.drop j) hex
  refine ⟨n, (reSearch_some_iff _ _ _ _).mpr ⟨?_, ?_, ?_⟩⟩
  · rcases hex with ⟨l, hl, hpre⟩
    have h1 := litPre_le_length hpre
    have h2 := anchorLits_pos hl
    simp only [List.length_drop] at h1
    omega
  · rw [anchorAlts_eq]
    exact hn
  · intro k hk
    rw [anchorAlts_eq, matchAlts_lits_none_iff]
    intro l hl hpre
    exact hmin k hk ((anchorAt_iff_exists r k).mpr ⟨l, hl, hpre⟩)

theorem reSearch_anchor_none (r : Str) (h : ∀ j, ¬ anchorAt r j) :
    reSearch (matchAlts anchorAlts) r = none := by
  rw [anchorAlts_eq]
  refine (reSearch_none_iff _ _).mpr ?_
  intro j
  rw [matchAlts_lits_none_iff]
  intro l hl hpre
  exact h j ((anchorAt_iff_exists r j).mpr ⟨l, hl, hpre⟩)

/-- An occurrence of `National Summary` contains an occurrence of `SUMMARY`
nine characters later, so if `SUMMARY` occurs nowhere, neither does
`National Summary`. -/
theorem litAt_natsum_imp_sum (t : Str) (k : Nat)
    (h : litAt t k ("National Summary".toList)) :
    litAt t (k + 9) ("SUMMARY".toList) := by
  unfold litAt litPre at h ⊢
  have hdrop : t.drop (k + 9) = (t.drop k).drop 9 := by
    rw [List.drop_drop]
  rw [hdrop]
  have hlen7 : ("SUMMARY".toList).length = 7 := rfl
  rw [hlen7]
  have htd : ((t.drop k).drop 9).take 7 = ((t.drop k).take 16).drop 9 := by
    rw [List.take_drop]
  rw [htd, List.map_drop]
  have hlen16 : ("National Summary".toList).length = 16 := rfl
  rw [hlen16] at h
  rw [h]
  decide

/-! ## The summary extractor (claim C4) and the end-to-end scenario (claim C1) -/

theorem summarySpan_anchor (t : Str) (e j : Nat)
    (hA : anchorAt (t.drop e) j)
    (hAmin : ∀ k, k < j → ¬ anchorAt (t.drop e) k) :
    summarySpan t e = pyStrip ((t.drop e).take j) := by
  obtain ⟨n, hanch⟩ := reSearch_anchor_of_least (t.drop e) j hA hAmin
  unfold summarySpan
  rw [hanch]

theorem summarySpan_no_anchor (t : Str) (e : Nat)
    (h : ∀ j, ¬ anchorAt (t.drop e) j) :
    summarySpan t e = pyStrip (t.drop e) := by
  unfold summarySpan
  rw [reSearch_anchor_none (t.drop e) h]

theorem extract_summary_of_sum_least (t : Str) (i : Nat)
    (h : litAt t i ("SUMMARY".toList))
    (hmin : ∀ k, k < i → ¬ litAt t k ("SUMMARY".toList)) :
    extract_summary_section t = some (summarySpan t (i + 7)) := by
  have hs : reSearch (matchAlts [lpat "SUMMARY"]) t = some (i, 7) :=
    reSearch_single_lit_of_least "SUMMARY" t i (by decide) h hmin
  unfold extract_summary_section summary_patterns
  rw [summaryAux, hs]

theorem extract_summary_of_ov_least (t : Str) (i : Nat)
    (hnosum : ∀ k, ¬ litAt t k ("SUMMARY".toList))
    (h : litAt t i ("Overview".toList))
    (hmin : ∀ k, k < i → ¬ litAt t k ("Overview".toList)) :
    extract_summary_section t = some (summarySpan t (i + 8)) := by
  have hs1 : reSearch (matchAlts [lpat "SUMMARY"]) t = none :=
    reSearch_single_lit_none "SUMMARY" t hnosum
  have hnonat : ∀ k, ¬ litAt t k ("National Summary".toList) := by
    intro k hk
    exact hnosum (k + 9) (litAt_natsum_imp_sum t k hk)
  have hs2 : reSearch (matchAlts [lpat "National Summary"]) t = none :=
    reSearch_single_lit_none "National Summary" t hnonat
  have hs3 : reSearch (matchAlts [lpat "Overview"]) t = some (i, 8) :=
    reSearch_single_lit_of_least "Overview" t i (by decide) h hmin
  unfold extract_summary_section summary_patterns
  rw [summaryAux, hs1, summaryAux, hs2, summaryAux, hs3]

theorem extract_summary_none_of_none (t : Str)
    (h1 : ∀ k, ¬ litAt t k ("SUMMARY".toList))
    (h2 : ∀ k, ¬ litAt t k ("National Summary".toList))
    (h3 : ∀ k, ¬ litAt t k ("Overview".toList)) :
    extract_summary_section t = none := by
  unfold extract_summary_section summary_patterns
  rw [summaryAux, reSearch_single_lit_none "SUMMARY" t h1,
      summaryAux, reSearch_single_lit_none "National Summary" t h2,
      summaryAux, reSearch_single_lit_none "Overview" t h3]
  rfl

/-- Claim C4 (counterexample): in the text `Overview x Summary y` the first
occurrence in the text of any of the three summary literals is `Overview`
at offset 0, so the claim predicts the summary `x Summary y`; the code
instead tries the pattern `SUMMARY` first, matches `Summary` at offset 11,
and returns `y`. -/
theorem claim_C4_counterexample :
    extract_summary_section ("Overview x Summary y".toList) = some ("y".toList) ∧
      some ("y".toList) ≠ some ("x Summary y".toList) := by
  exact ⟨by rfl, by decide⟩

/-- Claim C4 (amended): summary extraction tries the literals `SUMMARY`,
`National Summary`, `Overview` in that catalogue order, case-insensitively,
and uses the leftmost occurrence of the first literal of the catalogue that
occurs anywhere (not the first occurrence of any literal in text order).
The returned span starts immediately after the matched header, ends at the
first subsequent anchor occurrence (or at end of text when no anchor
follows), and is trimmed; if no literal occurs at all the result is absent. -/
theorem claim_C4_amended :
    (∀ t : Str,
      (∀ k, ¬ litAt t k ("SUMMARY".toList)) →
      (∀ k, ¬ litAt t k ("National Summary".toList)) →
      (∀ k, ¬ litAt t k ("Overview".toList)) →
      extract_summary_section t = none) ∧
    (∀ (t : Str) (i : Nat),
      litAt t i ("SUMMARY".toList) →
      (∀ k, k < i → ¬ litAt t k ("SUMMARY".toList)) →
      (∀ j, anchorAt (t.drop (i + 7)) j →
          (∀ k, k < j → ¬ anchorAt (t.drop (i + 7)) k) →
          extract_summary_section t = some (pyStrip ((t.drop (i + 7)).take j))) ∧
      ((∀ j, ¬ anchorAt (t.drop (i + 7)) j) →
          extract_summary_section t = some (pyStrip (t.drop (i + 7))))) ∧
    (∀ (t : Str) (i : Nat),
      (∀ k, ¬ litAt t k ("SUMMARY".toList)) →
      litAt t i ("Overview".toList) →
      (∀ k, k < i → ¬ litAt t k ("Overview".toList)) →
      (∀ j, anchorAt (t.drop (i + 8)) j →
          (∀ k, k < j → ¬ anchorAt (t.drop (i + 8)) k) →
          extract_summary_section t = some (pyStrip ((t.drop (i + 8)).take j))) ∧
      ((∀ j, ¬ anchorAt (t.drop (i + 8)) j) →
          extract_summary_section t = some (pyStrip (t.drop (i + 8))))) := by
  refine ⟨extract_summary_none_of_none, ?_, ?_⟩
  · intro t i h hmin
    have hbase := extract_summary_of_sum_least t i h hmin
    constructor
    · intro j hA hAmin
      rw [hbase, summarySpan_anchor t (i + 7) j hA hAmin]
    · intro hnone
      rw [hbase, summarySpan_no_anchor t (i + 7) hnone]
  · intro t i hnosum h hmin
    have hbase := extract_summary_of_ov_least t i hnosum h hmin
    constructor
    · intro j hA hAmin
      rw [hbase, summarySpan_anchor t (i + 8) j hA hAmin]
    · intro hnone
      rw [hbase, summarySpan_no_anchor t (i + 8) hnone]

/-- Witness for claim C4 (amended): in `a Summary b ATLANTA c` the literal
`SUMMARY` occurs first at offset 2 and the anchor `ATLANTA` occurs in the
remainder at offset 3, so the summary is the trimmed span `b`. -/
theorem claim_C4_amended_witness :
    extract_summary_section ("a Summary b ATLANTA c".toList) = some ("b".toList) := by
  have h := (claim_C4_amended.2.1 ("a Summary b ATLANTA c".toList) 2
      (by decide) (by decide)).1 3 (by decide) (by decide)
  rw [h]
  rfl

set_option maxRecDepth 40000 in
/-- Claim C1 (code bug): on the specification's end-to-end scenario text the
pipeline does return summary `Overall growth was modest.` and region_count 2,
but the region keys are the bare city names `Boston` and `New York`, not the
ordinal headers `First District--Boston` and `Second District--New York`
promised by the claim and by the source's own docstring examples: the
pattern `First District[—-]\s*Boston` admits only a single dash character,
so it never matches the double-hyphen headers, and the bare-city fallback
matches inside them instead, shifting each span to the city name. -/
theorem claim_C1_scenario :
    extract_beige_book ("BeigeBook_20240117.pdf".toList) scenarioText =
      BBResult.record
        { filename := "BeigeBook_20240117.pdf".toList
          date := some ⟨2024, 1, 17⟩
          full_text := scenarioText
          summary := some ("Overall growth was modest.".toList)
          regions := [("Boston".toList, "Boston Activity increased. Second District--".toList),
                      ("New York".toList, "New York Activity was flat.".toList)]
          region_count := 2
          char_count := 122
          word_count := 15 } ∧
    ("First District--Boston".toList ∉ (extract_regional_sections scenarioText).map Prod.fst) := by
  constructor
  · rfl
  · decide

/-! ## Region segmentation (claims C6, C7, C8) -/

theorem mem_insertPos {z x : Nat × Str} :
    ∀ {l : List (Nat × Str)}, z ∈ insertPos x l ↔ z = x ∨ z ∈ l
  | [] => by simp [insertPos]
  | y :: ys => by
      unfold insertPos
      by_cases h : x.1 ≤ y.1
      · rw [if_pos h]
        simp only [List.mem_cons]
      · rw [if_neg h]
        simp only [List.mem_cons, mem_insertPos (l := ys)]
        tauto

theorem mem_sortPos {z : Nat × Str} :
    ∀ {l : List (Nat × Str)}, z ∈ sortPos l ↔ z ∈ l
  | [] => by simp [sortPos]
  | y :: ys => by
      show z ∈ insertPos y (ys.foldr insertPos []) ↔ _
      rw [mem_insertPos]
      have hys : z ∈ ys.foldr insertPos [] ↔ z ∈ ys := mem_sortPos (l := ys)
      rw [hys]
      simp only [List.mem_cons]

theorem pairwise_insertPos {x : Nat × Str} :
    ∀ {l : List (Nat × Str)},
      l.Pairwise (fun a b => a.1 ≤ b.1) →
      (insertPos x l).Pairwise (fun a b => a.1 ≤ b.1)
  | [] => by
      intro _
      simp [insertPos]
  | y :: ys => by
      intro h
      unfold insertPos
      rcases List.pairwise_cons.mp h with ⟨hy, hys⟩
      by_cases hc : x.1 ≤ y.1
      · rw [if_pos hc]
        refine List.pairwise_cons.mpr ⟨?_, h⟩
        intro z hz
        rcases List.mem_cons.mp hz with rfl | hz2
        · exact hc
        · exact le_trans hc (hy z hz2)
      · rw [if_neg hc]
        refine List.pairwise_cons.mpr ⟨?_, pairwise_insertPos hys⟩
        intro z hz
        rcases mem_insertPos.mp hz with rfl | hz2
        · omega
        · exact hy z hz2

theorem sortPos_pairwise :
    ∀ (l : List (Nat × Str)), (sortPos l).Pairwise (fun a b => a.1 ≤ b.1)
  | [] => by simp [sortPos]
  | y :: ys => pairwise_insertPos (sortPos_pairwise ys)

theorem finditerF_nil (m : Str → Option Nat) (fuel i : Nat) :
    finditerF m fuel [] i = [] := by
  cases fuel <;> rfl

theorem finditerF_mem_bound (m : Str → Option Nat) :
    ∀ (fuel : Nat) (s : Str) (i p : Nat) (w : Str),
      (p, w) ∈ finditerF m fuel s i → i ≤ p ∧ p < i + s.length
  | 0, s, i, p, w => by
      intro h
      exact absurd h (List.not_mem_nil _)
  | fuel + 1, [], i, p, w => by
      intro h
      exact absurd h (List.not_mem_nil _)
  | fuel + 1, c :: t, i, p, w => by
      intro h
      unfold finditerF at h
      split at h
      · rename_i n hm
        rcases List.mem_cons.mp h with heq | hmem
        · have hp : p = i := congrArg Prod.fst heq
          simp only [List.length_cons]
          omega
        · by_cases hn : n ≤ t.length
          · have := finditerF_mem_bound m fuel (t.drop n) (i + n + 1) p w hmem
            simp only [List.length_drop, List.length_cons] at this ⊢
            omega
          · rw [List.drop_eq_nil_of_le (by omega), finditerF_nil] at hmem
            exact absurd hmem (List.not_mem_nil _)
      · have := finditerF_mem_bound m fuel t (i + 1) p w h
        simp only [List.length_cons]
        omega

theorem take_min_length (l : Str) (n : Nat) :
    l.take (min n l.length) = l.take n := by
  by_cases h : n ≤ l.length
  · rw [Nat.min_eq_left h]
  · rw [Nat.min_eq_right (by omega), List.take_length, List.take_of_length_le (by omega)]

theorem finditerF_verbatim (m : Str → Option Nat) :
    ∀ (fuel : Nat) (s : Str) (i p : Nat) (w : Str),
      (p, w) ∈ finditerF m fuel s i → w = (s.drop (p - i)).take w.length
  | 0, s, i, p, w => by
      intro h
      exact absurd h (List.not_mem_nil _)
  | fuel + 1, [], i, p, w => by
      intro h
      exact absurd h (List.not_mem_nil _)
  | fuel + 1, c :: t, i, p, w => by
      intro h
      unfold finditerF at h
      split at h
      · rename_i n hm
        rcases List.mem_cons.mp h with heq | hmem
        · have hp : p = i := congrArg Prod.fst heq
          have hw : w = (c :: t).take (n + 1) := congrArg Prod.snd heq
          subst hp
          rw [hw]
          simp only [Nat.sub_self, List.drop_zero, List.length_take]
          rw [take_min_length]
        · have hb := finditerF_mem_bound m fuel (t.drop n) (i + n + 1) p w hmem
          have hv := finditerF_verbatim m fuel (t.drop n) (i + n + 1) p w hmem
          have hdr : (c :: t).drop (p - i) = (t.drop n).drop (p - (i + n + 1)) := by
            rw [List.drop_drop,
                show p - i = (n + (p - (i + n + 1))) + 1 by omega,
                List.drop_succ_cons]
          rw [hdr]
          exact hv
      · have hb := finditerF_mem_bound m fuel t (i + 1) p w h
        have hv := finditerF_verbatim m fuel t (i + 1) p w h
        have hdr : (c :: t).drop (p - i) = t.drop (p - (i + 1)) := by
          rw [show p - i = (p - (i + 1)) + 1 by omega, List.drop_succ_cons]
        rw [hdr]
        exact hv

theorem regionMatchesSorted_mem_le (t : Str) {p : Nat} {w : Str}
    (h : (p, w) ∈ regionMatchesSorted t) : p ≤ t.length := by
  unfold regionMatchesSorted at h
  rw [mem_sortPos] at h
  unfold allRegionMatches at h
  rcases List.mem_flatMap.mp h with ⟨pat, _, hm⟩
  unfold finditer at hm
  have := (finditerF_mem_bound (matchAlts pat) (t.length + 1) t 0 p w hm).2
  omega

theorem regionMatchesSorted_verbatim (t : Str) {p : Nat} {w : Str}
    (h : (p, w) ∈ regionMatchesSorted t) : w = (t.drop p).take w.length := by
  unfold regionMatchesSorted at h
  rw [mem_sortPos] at h
  unfold allRegionMatches at h
  rcases List.mem_flatMap.mp h with ⟨pat, _, hm⟩
  unfold finditer at hm
  have := finditerF_verbatim (matchAlts pat) (t.length + 1) t 0 p w hm
  simpa using this

theorem spanBounds_map_fst (L : Nat) :
    ∀ (ms : List (Nat × Str)),
      (spanBounds L ms).map (fun x => x.1) = ms.map (fun m2 => m2.1)
  | [] => rfl
  | [(p, nm)] => rfl
  | (p, nm) :: (q, nm2) :: rest => by
      show p :: (spanBounds L ((q, nm2) :: rest)).map (fun x => x.1) = _
      rw [spanBounds_map_fst L ((q, nm2) :: rest)]
      rfl

theorem spanBounds_chain (L : Nat) :
    ∀ (ms : List (Nat × Str)),
      ms.Pairwise (fun a b => a.1 ≤ b.1) →
      (∀ x ∈ ms, x.1 ≤ L) →
      contiguousTo L (spanBounds L ms) ∧ ∀ y ∈ spanBounds L ms, y.1 ≤ y.2.1
  | [] => by
      intro _ _
      exact ⟨trivial, by simp [spanBounds]⟩
  | [(p, nm)] => by
      intro _ hb
      refine ⟨rfl, ?_⟩
      intro y hy
      rcases List.mem_singleton.mp hy with rfl
      exact hb (p, nm) (List.mem_singleton.mpr rfl)
  | (p, nm) :: (q, nm2) :: rest => by
      intro hp hb
      rcases List.pairwise_cons.mp hp with ⟨hpq, hrest⟩
      have IH := spanBounds_chain L ((q, nm2) :: rest) hrest
        (fun x hx => hb x (List.mem_cons_of_mem _ hx))
      constructor
      · cases rest with
        | nil => exact ⟨rfl, IH.1⟩
        | cons r rs =>
            obtain ⟨r1, r2⟩ := r
            exact ⟨rfl, IH.1⟩
      · intro y hy
        rcases List.mem_cons.mp hy with rfl | hy2
        · exact hpq (q, nm2) (List.mem_cons_self _ _)
        · exact IH.2 y hy2

theorem pySlice_to_end (t : Str) (p : Nat) :
    pySlice t p t.length = t.drop p := by
  unfold pySlice
  rw [← List.length_drop, List.take_length]

theorem dictInsert_nil (k v : Str) : dictInsert k v [] = [(k, v)] := rfl

theorem dictInsert_cons (k v k2 v2 : Str) (r : List (Str × Str)) :
    dictInsert k v ((k2, v2) :: r) =
      if k2 = k then (k, v) :: r else (k2, v2) :: dictInsert k v r := rfl

/-- Claim C6: region spans are contiguous and non-overlapping (each span
ends where the next begins and its start does not exceed its end), they
start exactly at the detected header offsets (so they collectively cover
the text from the first detected header to the end of the document), and
a text with zero header matches yields an empty region mapping with
region count zero — the function is total, so no error is raised. -/
theorem claim_C6_invariants (t : Str) :
    (regionMatchesSorted t = [] →
      extract_regional_sections t = [] ∧ (extract_regional_sections t).length = 0) ∧
    (spanBounds t.length (regionMatchesSorted t)).map (fun x => x.1) =
      (regionMatchesSorted t).map (fun m2 => m2.1) ∧
    contiguousTo t.length (spanBounds t.length (regionMatchesSorted t)) ∧
    (∀ y ∈ spanBounds t.length (regionMatchesSorted t), y.1 ≤ y.2.1) := by
  have hsorted : (regionMatchesSorted t).Pairwise (fun a b => a.1 ≤ b.1) :=
    sortPos_pairwise (allRegionMatches t)
  have hbound : ∀ x ∈ regionMatchesSorted t, x.1 ≤ t.length := by
    intro x hx
    obtain ⟨p, w⟩ := x
    exact regionMatchesSorted_mem_le t hx
  have hchain := spanBounds_chain t.length (regionMatchesSorted t) hsorted hbound
  refine ⟨?_, spanBounds_map_fst t.length (regionMatchesSorted t), hchain.1, hchain.2⟩
  intro h
  unfold extract_regional_sections
  rw [h]
  exact ⟨rfl, rfl⟩

/-- Witness for claim C6: the text `hello` has no header match and yields
an empty mapping; the text `ATLANTA aa BOSTON bb` yields the contiguous
spans `[0,11)` and `[11,20)`, and the span `(0,11)` satisfies start ≤ end. -/
theorem claim_C6_invariants_witness :
    extract_regional_sections ("hello".toList) = [] ∧
    contiguousTo ("ATLANTA aa BOSTON bb".toList).length
      (spanBounds ("ATLANTA aa BOSTON bb".toList).length
        (regionMatchesSorted ("ATLANTA aa BOSTON bb".toList))) ∧
    ((0 : Nat), (11 : Nat), "ATLANTA".toList).1 ≤
      ((0 : Nat), (11 : Nat), "ATLANTA".toList).2.1 := by
  refine ⟨((claim_C6_invariants ("hello".toList)).1 (by decide)).1,
          (claim_C6_invariants ("ATLANTA aa BOSTON bb".toList)).2.2.1,
          (claim_C6_invariants ("ATLANTA aa BOSTON bb".toList)).2.2.2
            ((0 : Nat), (11 : Nat), "ATLANTA".toList) (by decide)⟩

/-- Claim C7: with exactly one header match at offset `p`, the single
region's text is the trimmed text from `p` to the end; with exactly three
header matches at offsets `p1 < p2 < p3` (as ordered by the sorted match
list), the spans are `[p1,p2)`, `[p2,p3)`, `[p3,end)`, and — when the three
matched labels are distinct — the mapping holds exactly their trimmed
span texts. -/
theorem claim_C7_spans :
    (∀ (t : Str) (p : Nat) (nm : Str),
      regionMatchesSorted t = [(p, nm)] →
      extract_regional_sections t = [(nm, pyStrip (t.drop p))]) ∧
    (∀ (t : Str) (p1 p2 p3 : Nat) (n1 n2 n3 : Str),
      regionMatchesSorted t = [(p1, n1), (p2, n2), (p3, n3)] →
      spanBounds t.length (regionMatchesSorted t) =
        [(p1, p2, n1), (p2, p3, n2), (p3, t.length, n3)] ∧
      (n1 ≠ n2 → n1 ≠ n3 → n2 ≠ n3 →
        extract_regional_sections t =
          [(n1, pyStrip (pySlice t p1 p2)), (n2, pyStrip (pySlice t p2 p3)),
           (n3, pyStrip (pySlice t p3 t.length))])) := by
  constructor
  · intro t p nm h
    unfold extract_regional_sections
    rw [h]
    show dictInsert nm (pyStrip (pySlice t p t.length)) [] = _
    rw [pySlice_to_end]
    rfl
  · intro t p1 p2 p3 n1 n2 n3 h
    constructor
    · rw [h]
      rfl
    · intro h12 h13 h23
      unfold extract_regional_sections
      rw [h]
      show dictInsert n3 (pyStrip (pySlice t p3 t.length))
          (dictInsert n2 (pyStrip (pySlice t p2 p3))
            (dictInsert n1 (pyStrip (pySlice t p1 p2)) [])) = _
      simp [dictInsert_nil, dictInsert_cons, h12, h13, h23]

/-- Witness for claim C7: `xx ATLANTA yy` has exactly one header match, at
offset 3; `ATLANTA a BOSTON b CHICAGO c` has exactly three, at offsets
0 < 10 < 19 with distinct labels. -/
theorem claim_C7_spans_witness :
    extract_regional_sections ("xx ATLANTA yy".toList) =
      [("ATLANTA".toList, pyStrip ("xx ATLANTA yy".toList.drop 3))] ∧
    extract_regional_sections ("ATLANTA a BOSTON b CHICAGO c".toList) =
      [("ATLANTA".toList, pyStrip (pySlice ("ATLANTA a BOSTON b CHICAGO c".toList) 0 10)),
       ("BOSTON".toList, pyStrip (pySlice ("ATLANTA a BOSTON b CHICAGO c".toList) 10 19)),
       ("CHICAGO".toList,
         pyStrip (pySlice ("ATLANTA a BOSTON b CHICAGO c".toList) 19
           ("ATLANTA a BOSTON b CHICAGO c".toList).length))] := by
  refine ⟨claim_C7_spans.1 ("xx ATLANTA yy".toList) 3 ("ATLANTA".toList) (by decide), ?_⟩
  exact (claim_C7_spans.2 ("ATLANTA a BOSTON b CHICAGO c".toList) 0 10 19
      ("ATLANTA".toList) ("BOSTON".toList) ("CHICAGO".toList) (by decide)).2
    (by decide) (by decide) (by decide)

/-- Claim C8: the region mapping is keyed by the matched literal substring
verbatim (every recorded match label is exactly the slice of the text at
its offset), and when the same literal recurs as two distinct matches the
mapping holds only the later match's trimmed span (last-write-wins). -/
theorem claim_C8_last_write_wins :
    (∀ (t : Str) (p : Nat) (w : Str),
      (p, w) ∈ regionMatchesSorted t → w = (t.drop p).take w.length) ∧
    (∀ (t : Str) (p1 p2 : Nat) (nm : Str),
      regionMatchesSorted t = [(p1, nm), (p2, nm)] →
      extract_regional_sections t = [(nm, pyStrip (pySlice t p2 t.length))]) := by
  constructor
  · intro t p w h
    exact regionMatchesSorted_verbatim t h
  · intro t p1 p2 nm h
    unfold extract_regional_sections
    rw [h]
    show dictInsert nm (pyStrip (pySlice t p2 t.length))
        (dictInsert nm (pyStrip (pySlice t p1 p2)) []) = _
    simp [dictInsert_nil, dictInsert_cons]

/-- Witness for claim C8: in `ATLANTA one ATLANTA two` the literal
`ATLANTA` matches at offsets 0 and 12; the mapping keeps only the later
span, and the recorded match at offset 0 is the verbatim slice there. -/
theorem claim_C8_last_write_wins_witness :
    "ATLANTA".toList =
      (("ATLANTA one ATLANTA two".toList).drop 0).take ("ATLANTA".toList).length ∧
    extract_regional_sections ("ATLANTA one ATLANTA two".toList) =
      [("ATLANTA".toList,
        pyStrip (pySlice ("ATLANTA one ATLANTA two".toList) 12
          ("ATLANTA one ATLANTA two".toList).length))] := by
  exact ⟨claim_C8_last_write_wins.1 ("ATLANTA one ATLANTA two".toList) 0
      ("ATLANTA".toList) (by decide),
    claim_C8_last_write_wins.2 ("ATLANTA one ATLANTA two".toList) 0 12
      ("ATLANTA".toList) (by decide)⟩

/-! ## The text normalizer (claims C3 and C5) -/

theorem subClass_mem_allowed {c : Char} {l : Str} (h : c ∈ subClass l) :
    allowedChar c = true := by
  unfold subClass at h
  rcases List.mem_map.mp h with ⟨d, _, hval⟩
  by_cases hd : allowedChar d = true
  · rw [if_pos hd] at hval
    rw [← hval]
    exact hd
  · rw [if_neg hd] at hval
    rw [← hval]
    decide

theorem subClass_eq_self :
    ∀ (l : Str), (∀ c ∈ l, allowedChar c = true) → subClass l = l
  | [] => fun _ => rfl
  | c :: cs => fun h => by
      show (if allowedChar c then c else ' ') :: subClass cs = c :: cs
      rw [if_pos (h c (List.mem_cons_self _ _)),
          subClass_eq_self cs (fun d hd => h d (List.mem_cons_of_mem _ hd))]

theorem collapseWs_one (c : Char) :
    collapseWs [c] = if pyIsSpace c then [' '] else [c] := rfl

theorem collapseWs_cons2 (a b : Char) (r : Str) :
    collapseWs (a :: b :: r) =
      if pyIsSpace a then
        (if pyIsSpace b then collapseWs (b :: r) else ' ' :: collapseWs (b :: r))
      else a :: collapseWs (b :: r) := rfl

theorem collapseWs_wsOnly :
    ∀ (l : Str) (c : Char), c ∈ collapseWs l → pyIsSpace c = true → c = ' '
  | [] => by
      intro c hc _
      exact absurd hc (List.not_mem_nil _)
  | [d] => by
      intro c hc hs
      rw [collapseWs_one] at hc
      by_cases hd : pyIsSpace d = true
      · rw [if_pos hd] at hc
        exact List.mem_singleton.mp hc
      · rw [if_neg hd] at hc
        rcases List.mem_singleton.mp hc with rfl
        exact absurd hs hd
  | a :: b :: r => by
      intro c hc hs
      rw [collapseWs_cons2] at hc
      by_cases ha : pyIsSpace a = true
      · rw [if_pos ha] at hc
        by_cases hb : pyIsSpace b = true
        · rw [if_pos hb] at hc
          exact collapseWs_wsOnly (b :: r) c hc hs
        · rw [if_neg hb] at hc
          rcases List.mem_cons.mp hc with rfl | h2
          · rfl
          · exact collapseWs_wsOnly (b :: r) c h2 hs
      · rw [if_neg ha] at hc
        rcases List.mem_cons.mp hc with rfl | h2
        · exact absurd hs ha
        · exact collapseWs_wsOnly (b :: r) c h2 hs

theorem collapseWs_eq_self :
    ∀ (l : Str), (∀ c ∈ l, pyIsSpace c = true → c = ' ') → noDbl l = true →
      collapseWs l = l
  | [] => fun _ _ => rfl
  | [c] => fun hws _ => by
      rw [collapseWs_one]
      by_cases hc : pyIsSpace c = true
      · rw [if_pos hc, hws c (List.mem_singleton.mpr rfl) hc]
      · rw [if_neg hc]
  | a :: b :: r => fun hws hd => by
      have hd1 : ¬ (pyIsSpace a = true ∧ pyIsSpace b = true) := by
        unfold noDbl at hd
        simp only [Bool.and_eq_true, Bool.not_eq_true'] at hd
        intro ⟨ha, hb⟩
        rw [ha, hb] at hd
        simp at hd
      have hd2 : noDbl (b :: r) = true := by
        unfold noDbl at hd
        simp only [Bool.and_eq_true] at hd
        exact hd.2
      have hrest := collapseWs_eq_self (b :: r)
        (fun c hc hcs => hws c (List.mem_cons_of_mem _ hc) hcs) hd2
      rw [collapseWs_cons2]
      by_cases ha : pyIsSpace a = true
      · have hb : ¬ pyIsSpace b = true := fun hb => hd1 ⟨ha, hb⟩
        rw [if_pos ha, if_neg hb, hrest, ← hws a (List.mem_cons_self _ _) ha]
      · rw [if_neg ha, hrest]

theorem subPageF_subset :
    ∀ (fuel : Nat) (l : Str) (c : Char), c ∈ subPageF fuel l → c ∈ l
  | 0, l, c => by
      intro h
      exact absurd h (List.not_mem_nil _)
  | fuel + 1, [], c => by
      intro h
      exact absurd h (List.not_mem_nil _)
  | fuel + 1, d :: cs, c => by
      intro h
      unfold subPageF at h
      split at h
      · rename_i n _
        have := subPageF_subset fuel (cs.drop (n - 1)) c h
        exact List.mem_cons_of_mem _ (List.drop_subset _ _ this)
      · rcases List.mem_cons.mp h with rfl | h2
        · exact List.mem_cons_self _ _
        · exact List.mem_cons_of_mem _ (subPageF_subset fuel cs c h2)

theorem subPage_subset {l : Str} {c : Char} (h : c ∈ subPage l) : c ∈ l :=
  subPageF_subset _ l c h

theorem pageFree_head {c : Char} {cs : Str} (h : pageFree (c :: cs) = true) :
    matchPage (c :: cs) = none ∧ pageFree cs = true := by
  unfold pageFree at h ⊢
  rw [List.tails_cons, List.all_cons, Bool.and_eq_true] at h
  exact ⟨Option.isNone_iff_eq_none.mp h.1, h.2⟩

theorem subPageF_eq_self :
    ∀ (fuel : Nat) (l : Str), l.length < fuel → pageFree l = true → subPageF fuel l = l
  | 0, l => by
      intro h _
      exact absurd h (Nat.not_lt_zero _)
  | fuel + 1, [] => fun _ _ => rfl
  | fuel + 1, c :: cs => by
      intro hf hp
      rcases pageFree_head hp with ⟨hm, hrest⟩
      have he : subPageF (fuel + 1) (c :: cs) = c :: subPageF fuel cs := by
        conv_lhs => rw [subPageF]
        rw [hm]
      rw [he, subPageF_eq_self fuel cs (by simp only [List.length_cons] at hf; omega) hrest]

theorem subPage_eq_self {l : Str} (h : pageFree l = true) : subPage l = l :=
  subPageF_eq_self _ l (by omega) h

theorem pyStrip_subset {l : Str} {c : Char} (h : c ∈ pyStrip l) : c ∈ l := by
  unfold pyStrip at h
  rw [List.mem_reverse] at h
  have h2 : c ∈ (l.dropWhile pyIsSpace).reverse := (List.dropWhile_sublist _).subset h
  rw [List.mem_reverse] at h2
  exact (List.dropWhile_sublist _).subset h2

theorem dropWhile_head_not :
    ∀ (l : Str) (c : Char), (l.dropWhile pyIsSpace).head? = some c → pyIsSpace c = false
  | [] => by
      intro c h
      simp [List.dropWhile] at h
  | d :: ds => by
      intro c h
      rw [List.dropWhile_cons] at h
      by_cases hd : pyIsSpace d = true
      · rw [if_pos hd] at h
        exact dropWhile_head_not ds c h
      · rw [if_neg hd] at h
        simp only [List.head?_cons, Option.some.injEq] at h
        rw [← h]
        exact Bool.not_eq_true _ ▸ hd

theorem dropWhile_eq_self_of_head (l : Str) (c : Char)
    (hh : l.head? = some c) (hc : pyIsSpace c = false) :
    l.dropWhile pyIsSpace = l := by
  cases l with
  | nil => rfl
  | cons d ds =>
      simp only [List.head?_cons, Option.some.injEq] at hh
      subst hh
      rw [List.dropWhile_cons, if_neg (by simp [hc])]

theorem dropWhile_getLast? :
    ∀ (l : Str), l.dropWhile pyIsSpace = [] ∨
      ((l.dropWhile pyIsSpace).getLast? = l.getLast? ∧ l.dropWhile pyIsSpace ≠ [])
  | [] => Or.inl rfl
  | d :: ds => by
      rw [List.dropWhile_cons]
      by_cases hd : pyIsSpace d = true
      · rw [if_pos hd]
        rcases dropWhile_getLast? ds with h | ⟨h1, h2⟩
        · exact Or.inl h
        · refine Or.inr ⟨?_, h2⟩
          rw [h1]
          cases ds with
          | nil => exact absurd rfl h2
          | cons e es => rw [List.getLast?_cons_cons]
      · rw [if_neg hd]
        exact Or.inr ⟨rfl, by simp⟩

theorem pyStrip_eq_self_of (l : Str)
    (h1 : l.dropWhile pyIsSpace = l)
    (h2 : l.reverse.dropWhile pyIsSpace = l.reverse) :
    pyStrip l = l := by
  unfold pyStrip
  rw [h1, h2, List.reverse_reverse]

theorem pyStrip_idem (l : Str) : pyStrip (pyStrip l) = pyStrip l := by
  refine pyStrip_eq_self_of _ ?_ ?_
  · cases hh : (pyStrip l).head? with
    | none =>
        rw [List.head?_eq_none_iff.mp hh]
        rfl
    | some c =>
        refine dropWhile_eq_self_of_head _ c hh ?_
        unfold pyStrip at hh
        rw [List.head?_reverse] at hh
        rcases dropWhile_getLast? ((l.dropWhile pyIsSpace).reverse) with hB | ⟨hB1, _⟩
        · rw [hB] at hh
          exact absurd hh (by simp)
        · rw [hB1, List.getLast?_reverse] at hh
          exact dropWhile_head_not l c hh
  · unfold pyStrip
    rw [List.reverse_reverse]
    cases hh : ((l.dropWhile pyIsSpace).reverse.dropWhile pyIsSpace).head? with
    | none =>
        rw [List.head?_eq_none_iff.mp hh]
        rfl
    | some c =>
        exact dropWhile_eq_self_of_head _ c hh (dropWhile_head_not _ c hh)

/-- Claim C5 (counterexample): the normalizer keeps the underscore (the
class `\w` matches it), and an underscore is neither alphanumeric, nor
whitespace, nor one of the allowed punctuation marks, so the claim's
character-set invariant fails on the input `_`. -/
theorem claim_C5_counterexample :
    clean_text ("_".toList) = "_".toList ∧
      ¬ ('_'.isAlphanum = true ∨ pyIsSpace '_' = true ∨
          '_' ∈ ['.', ',', ';', ':', '!', '?', '-', '(', ')']) := by
  exact ⟨by rfl, by decide⟩

/-- Claim C5 (amended): every character of the normalizer's output is a
word character (alphanumeric or underscore), whitespace, or one of the
punctuation marks `. , ; : ! ? - ( )`; every character outside that set is
replaced by a single space and does not survive normalization. -/
theorem claim_C5_amended (x : Str) (c : Char) (h : c ∈ clean_text x) :
    c.isAlphanum = true ∨ c = '_' ∨ pyIsSpace c = true ∨
      c ∈ ['.', ',', ';', ':', '!', '?', '-', '(', ')'] := by
  have h1 : c ∈ subClass (subPage (collapseWs x)) := pyStrip_subset h
  have h2 := subClass_mem_allowed h1
  unfold allowedChar isWordChar at h2
  simp only [Bool.or_eq_true, decide_eq_true_eq] at h2
  tauto

/-- Witness for claim C5 (amended): the character `a` of the normalized
text `a` is alphanumeric. -/
theorem claim_C5_amended_witness :
    'a'.isAlphanum = true ∨ 'a' = '_' ∨ pyIsSpace 'a' = true ∨
      'a' ∈ ['.', ',', ';', ':', '!', '?', '-', '(', ')'] :=
  claim_C5_amended ("a".toList) 'a' (by decide)

/-- Claim C3 (counterexample): the normalizer is not idempotent.  In
`a@@b` the two disallowed characters are each replaced by a space (after
whitespace collapsing has already run), leaving the double space `a  b`;
a second application collapses it to `a b`. -/
theorem claim_C3_counterexample :
    clean_text (clean_text ("a@@b".toList)) ≠ clean_text ("a@@b".toList) := by
  decide

/-- Claim C3 (amended): applying the normalizer twice yields the same
result as applying it once, provided its first output contains no two
adjacent whitespace characters and no `Page <digits>` occurrence (both can
arise, since disallowed characters are replaced by spaces after whitespace
collapsing, and page-artifact removal can abut spaces or splice digits). -/
theorem claim_C3_amended (x : Str)
    (h1 : noDbl (clean_text x) = true) (h2 : pageFree (clean_text x) = true) :
    clean_text (clean_text x) = clean_text x := by
  have hws : ∀ c ∈ clean_text x, pyIsSpace c = true → c = ' ' := by
    intro c hc hs
    have hc1 : c ∈ subClass (subPage (collapseWs x)) := pyStrip_subset hc
    rcases List.mem_map.mp hc1 with ⟨d, hd, hval⟩
    by_cases hall : allowedChar d = true
    · rw [if_pos hall] at hval
      rw [← hval] at hs ⊢
      exact collapseWs_wsOnly x d (subPage_subset hd) hs
    · rw [if_neg hall] at hval
      rw [← hval]
  have hallow : ∀ c ∈ clean_text x, allowedChar c = true := fun c hc =>
    subClass_mem_allowed (pyStrip_subset hc)
  show pyStrip (subClass (subPage (collapseWs (clean_text x)))) = clean_text x
  rw [collapseWs_eq_self (clean_text x) hws h1, subPage_eq_self h2,
      subClass_eq_self (clean_text x) hallow]
  exact pyStrip_idem (subClass (subPage (collapseWs x)))

/-- Witness for claim C3 (amended): the once-normalized form of
`  hello,  world  ` is `hello, world`, which has no double space and no
page artifact, so a second application changes nothing. -/
theorem claim_C3_amended_witness :
    clean_text (clean_text ("  hello,  world  ".toList)) =
      clean_text ("  hello,  world  ".toList) :=
  claim_C3_amended ("  hello,  world  ".toList) (by decide) (by decide)

/-! ## The document processor (claim C9) -/

theorem countTokensAux_cons (inTok : Bool) (c : Char) (cs : Str) :
    countTokensAux inTok (c :: cs) =
      if pyIsSpace c then countTokensAux false cs
      else (if inTok then 0 else 1) + countTokensAux true cs := rfl

theorem pySplitAux_length :
    ∀ (cs acc : Str),
      (pySplitAux acc cs).length =
        (match acc with
         | [] => countTokensAux false cs
         | _ :: _ => 1 + countTokensAux true cs)
  | [], acc => by
      cases acc with
      | nil => rfl
      | cons a as =>
          show (if (a :: as : Str) = [] then ([] : List Str) else [(a :: as).reverse]).length = 1 + 0
          rw [if_neg (by simp)]
          rfl
  | c :: cs, acc => by
      cases acc with
      | nil =>
          show (if pyIsSpace c then pySplitAux [] cs else pySplitAux [c] cs).length = _
          by_cases hc : pyIsSpace c = true
          · rw [if_pos hc]
            show (pySplitAux [] cs).length = countTokensAux false (c :: cs)
            rw [pySplitAux_length cs [], countTokensAux_cons, if_pos hc]
          · rw [if_neg hc]
            show (pySplitAux [c] cs).length = countTokensAux false (c :: cs)
            rw [pySplitAux_length cs [c], countTokensAux_cons, if_neg hc]
            simp
      | cons a as =>
          show (if pyIsSpace c then (a :: as).reverse :: pySplitAux [] cs
                else pySplitAux (c :: a :: as) cs).length = _
          by_cases hc : pyIsSpace c = true
          · rw [if_pos hc]
            show ((a :: as).reverse :: pySplitAux [] cs).length =
              1 + countTokensAux true (c :: cs)
            rw [List.length_cons, pySplitAux_length cs [], countTokensAux_cons, if_pos hc]
            show countTokensAux false cs + 1 = 1 + countTokensAux false cs
            omega
          · rw [if_neg hc]
            show (pySplitAux (c :: a :: as) cs).length = 1 + countTokensAux true (c :: cs)
            rw [pySplitAux_length cs (c :: a :: as), countTokensAux_cons, if_neg hc]
            simp

theorem pySplit_length_eq_countTokens (l : Str) :
    (pySplit l).length = countTokens l := by
  unfold pySplit countTokens
  exact pySplitAux_length l []

/-- Claim C9 (counterexample): for the file `BeigeBook_99999999.pdf` with
empty extracted text, the processor does not return an error record: the
date parse runs first and raises `ValueError` (month 99), aborting the
call. -/
theorem claim_C9_counterexample :
    extract_beige_book ("BeigeBook_99999999.pdf".toList) [] = BBResult.raised := by
  rfl

/-- Claim C9 (amended): provided the filename's date parse does not raise
(see C2), a file whose extracted text is empty yields an error record
containing only the error message, and a file with non-empty text yields
the full record: filename, parsed date, cleaned full text, cleaned summary
(absent when the summary is missing or empty — Python truthiness),
cleaned region mapping, region count, character count, and word count equal
to the number of whitespace-delimited tokens of the cleaned full text. -/
theorem claim_C9_amended (name raw : Str) (d : Option PDate)
    (hd : extract_date_from_filename name = Except.ok d) :
    (raw = [] → extract_beige_book name raw = BBResult.errorRec (errMsg name)) ∧
    (raw ≠ [] → extract_beige_book name raw = BBResult.record
      { filename := name
        date := d
        full_text := clean_text raw
        summary := cleanSummaryOpt (extract_summary_section raw)
        regions := (extract_regional_sections raw).map (fun kv => (kv.1, clean_text kv.2))
        region_count := (extract_regional_sections raw).length
        char_count := (clean_text raw).length
        word_count := countTokens (clean_text raw) }) := by
  constructor
  · intro h
    subst h
    unfold extract_beige_book
    rw [hd]
    rfl
  · intro h
    cases raw with
    | nil => exact absurd rfl h
    | cons r rs =>
        have he : extract_beige_book name (r :: rs) = BBResult.record
            { filename := name
              date := d
              full_text := clean_text (r :: rs)
              summary := cleanSummaryOpt (extract_summary_section (r :: rs))
              regions := (extract_regional_sections (r :: rs)).map
                (fun kv => (kv.1, clean_text kv.2))
              region_count := (extract_regional_sections (r :: rs)).length
              char_count := (clean_text (r :: rs)).length
              word_count := (pySplit (clean_text (r :: rs))).length } := by
          unfold extract_beige_book
          rw [hd]
          rfl
        rw [he, pySplit_length_eq_countTokens]

/-- Witness for claim C9 (amended): the file `BeigeBook_20240117.pdf` with
the non-empty text `hi` yields the full record, and with empty text yields
the error record. -/
theorem claim_C9_amended_witness :
    extract_beige_book ("BeigeBook_20240117.pdf".toList) ("hi".toList) =
      BBResult.record
        { filename := "BeigeBook_20240117.pdf".toList
          date := some ⟨2024, 1, 17⟩
          full_text := "hi".toList
          summary := none
          regions := []
          region_count := 0
          char_count := 2
          word_count := 1 } ∧
    extract_beige_book ("BeigeBook_20240117.pdf".toList) [] =
      BBResult.errorRec (errMsg ("BeigeBook_20240117.pdf".toList)) := by
  have h := claim_C9_amended ("BeigeBook_20240117.pdf".toList) ("hi".toList)
      (some ⟨2024, 1, 17⟩) (by rfl)
  have h0 := claim_C9_amended ("BeigeBook_20240117.pdf".toList) []
      (some ⟨2024, 1, 17⟩) (by rfl)
  refine ⟨?_, h0.1 rfl⟩
  rw [h.2 (by decide)]
  rfl
